import Mathlib

/-!
Verification of the `s3_bucket_downloader` tool from `rust-cli-tools`,
against its natural-language specification.

The Rust source (`src/s3_bucket_downloader/src/main.rs`) is shallowly
embedded below: each Rust function is translated to a Lean function over
explicit inputs.  Effectful calls (network fetches, sleeps, filesystem
writes) are modelled by passing in the sequence of responses the outside
world would give and by recording the side effects a run would perform.
The file lists all definitions first, followed by the lemmas and the
claim theorems.
-/

namespace S3Downloader

/-- Model of a byte vector (`Vec<u8>` in the source); only its length
matters here. -/
abbrev Bytes := List Nat

/-- Model of an S3 object key, or of a line of a key-list file, as its
character sequence. -/
abbrev Key := List Char

/-! Retry Policy: `download_object_with_retry`, main.rs lines 255-279.

The wrapped fallible operation is modelled as `f : Nat → Except E A`,
where `f k` is the outcome of the call made when `retry_count = k`
(so `f 0` is attempt 1, `f k` is attempt `k+1`).  The loop is embedded as
`retryGo`, with the mutable locals `retry_count` and `last_error` as
arguments, plus a ghost accumulator `sleeps` recording the sleep durations
(in seconds) performed so far, in order.  The result includes the total
number of calls made, so that call counts can be stated. -/

/-- One run of the `while retry_count <= max_retries` loop of
`download_object_with_retry`: returns the result together with the total
number of calls made and the list of sleeps performed. -/
def retryGo (f : Nat → Except E A) (maxRetries : Nat) (dflt : E)
    (retryCount : Nat) (lastError : Option E) (sleeps : List Nat) :
    Except E A × Nat × List Nat :=
  if retryCount ≤ maxRetries then
    match f retryCount with
    | .ok a => (.ok a, retryCount + 1, sleeps)
    | .error e =>
      if retryCount + 1 ≤ maxRetries then
        retryGo f maxRetries dflt (retryCount + 1) (some e)
          (sleeps ++ [2 ^ (retryCount + 1)])
      else
        retryGo f maxRetries dflt (retryCount + 1) (some e) sleeps
  else
    (.error (lastError.getD dflt), retryCount, sleeps)
  termination_by maxRetries + 1 - retryCount

/-- The Retry Policy, `download_object_with_retry` (main.rs lines
255-279).  `dflt` is the `"Unknown error"` value used when no error was
recorded. -/
def download_object_with_retry (f : Nat → Except E A) (maxRetries : Nat)
    (dflt : E) : Except E A × Nat × List Nat :=
  retryGo f maxRetries dflt 0 none []

/-- Example operation: fails on attempts 1-3, succeeds on attempt 4. -/
def failsFirstThree : Nat → Except Unit Nat :=
  fun k => if k < 3 then .error () else .ok 42

/-- Example operation: every attempt fails, with the attempt index as the
error value. -/
def failAlways : Nat → Except Nat Nat := fun k => .error k

/-! Work Partitioner: `main`, main.rs lines 154 and 163.

The static round-robin assignment: the enumerated key at flat position
`i` (`keys.par_iter().enumerate()`, line 154) is handled under worker
index `i % num_workers` (line 163). -/

/-- Worker index for flat position `i` (main.rs line 163):
`let thread_num = i % num_workers;`. -/
def thread_num (i numWorkers : Nat) : Nat := i % numWorkers

/-- The `(index, key)` pairs of the enumerated key list at positions
assigned to worker `w`. -/
def workerAssign (keys : List α) (numWorkers w : Nat) : List (Nat × α) :=
  keys.enum.filter (fun p => thread_num p.1 numWorkers == w)

/-- The subsequence of keys assigned to worker `w`. -/
def workerKeys (keys : List α) (numWorkers w : Nat) : List α :=
  (workerAssign keys numWorkers w).map Prod.snd

/-! Key Lister: `list_objects`, main.rs lines 219-253. -/

/-- Model of one `ListObjectsV2` response: the optional object list (each
object with an optional key) and the optional truncation flag. -/
structure Page where
  contents : Option (List (Option Key))
  is_truncated : Option Bool

/-- Keys pushed for one page (main.rs lines 231-237): only objects whose
`key` field is present. -/
def pageKeys (p : Page) : List Key :=
  match p.contents with
  | none => []
  | some objs => objs.filterMap id

/-- The `loop` of `list_objects` (main.rs lines 223-250), consuming the
successive responses of the remote store in order.  An `Ok` page has its
keys appended; listing continues only while `is_truncated` holds; an
`Err` response breaks out of the loop at once. -/
def listObjectsGo (acc : List Key) : List (Except ε Page) → List Key
  | [] => acc
  | r :: rest =>
    match r with
    | .error _ => acc
    | .ok p =>
      if p.is_truncated.getD false then listObjectsGo (acc ++ pageKeys p) rest
      else acc ++ pageKeys p

/-- Best-effort paginated listing, `list_objects` (main.rs lines 219-253).
Its result type is a plain key list — a page failure is never surfaced as
an error to the caller. -/
def list_objects (responses : List (Except ε Page)) : List Key :=
  listObjectsGo [] responses

/-! Key Cache: the save and load sides, main.rs lines 93-98 and 105-108. -/

/-- Cache-file content written by `main` (main.rs lines 105-108):
`writeln!(file, "{}", key)` for each key, i.e. each key followed by a
newline character. -/
def saveFileList (keys : List Key) : List Char :=
  (keys.map (fun k => k ++ ['\n'])).flatten

/-- One step of `BufRead::read_line`: the first line (up to and excluding
the first newline) and the remaining content after that newline. -/
def splitLine : List Char → List Char × List Char
  | [] => ([], [])
  | c :: cs =>
    if c = '\n' then ([], cs)
    else ((splitLine cs).1.cons c, (splitLine cs).2)

/-- Line post-processing of `BufRead::lines`: strip one trailing carriage
return from the line. -/
def stripCR (l : List Char) : List Char :=
  if l.getLast? = some '\r' then l.dropLast else l

/-- Model of `reader.lines().map_while(Result::ok).collect()` (main.rs
lines 93 and 98): the list of lines of the file content,
newline-delimited, each with a trailing carriage return removed. -/
def readLines (s : List Char) : List (List Char) :=
  if hs : s.isEmpty then []
  else stripCR (splitLine s).1 :: readLines (splitLine s).2
  termination_by s.length
  decreasing_by
    have hle : ∀ l : List Char, (splitLine l).2.length ≤ l.length := by
      intro l
      induction l with
      | nil => simp [splitLine]
      | cons c cs ih =>
        rw [splitLine]
        by_cases h : c = '\n'
        · simp [h]
        · simp only [h, if_false]
          simpa using Nat.le_succ_of_le ih
    cases s with
    | nil => simp at hs
    | cons c cs =>
      rw [splitLine]
      by_cases h : c = '\n'
      · simp [h]
      · simp only [h, if_false]
        simpa using Nat.lt_succ_of_le (hle cs)

/-! Key-source selection: `main`, main.rs lines 86-112. -/

/-- Cache-file path for a bucket (main.rs line 86):
`format!("{}.files.txt", bucket_name)`. -/
def default_file_list (bucket : List Char) : List Char :=
  bucket ++ (".files.txt").toList

/-- Outcome of the key-source selection in `main` (main.rs lines 86-112):
the chosen key list, whether a fresh bucket listing was performed, and
the cache-file content written (if any). -/
structure KeySelection where
  keys : List Key
  listedFresh : Bool
  savedCache : Option (List Char)

/-- The `let keys = if let Some(file_list) = args.file_list { … } else if
PathBuf::from(&default_file_list).exists() { … } else { … }` chain of
`main` (main.rs lines 89-112).  `fsRead p` is the content of the file at
path `p`, or `none` if it does not exist. -/
def getKeys (fsRead : List Char → Option (List Char))
    (fileListArg : Option (List Char)) (bucket : List Char)
    (responses : List (Except ε Page)) : KeySelection :=
  match fileListArg with
  | some fl =>
    KeySelection.mk (readLines ((fsRead fl).getD [])) false none
  | none =>
    match fsRead (default_file_list bucket) with
    | some content => KeySelection.mk (readLines content) false none
    | none =>
      let keys := list_objects responses
      KeySelection.mk keys true (some (saveFileList keys))

/-! Download Executor side effects: the worker closure of `main`,
main.rs lines 166-199. -/

/-- One filesystem or counter side effect performed while processing one
key in the worker closure of `main` (main.rs lines 166-199). -/
inductive Effect where
  | createDirAll : Effect
  | createWriteFile : Nat → Effect
  | incDownloaded : Effect
  | incDownloadedSize : Nat → Effect
  | incFailed : Effect
  deriving DecidableEq

/-- The ordered side-effect trace of processing one key (main.rs lines
167-199): the parent directory is created (line 170, whenever the
destination path has a parent) before `download_object_with_retry` is
awaited; then, on success, the file is created and written and the
success counters are bumped (lines 175-178); on failure only the failure
counter is bumped (line 189).  `fetch` is the outcome of the (retried)
fetch for this key. -/
def processKeyEffects (hasParent : Bool) (fetch : Except ε Bytes) :
    List Effect :=
  (if hasParent then [Effect.createDirAll] else []) ++
    match fetch with
    | .ok bytes => [Effect.createWriteFile bytes.length, Effect.incDownloaded,
        Effect.incDownloadedSize bytes.length]
    | .error _ => [Effect.incFailed]

/-! Progress State: the three atomic counters, main.rs lines 125-127. -/

/-- Progress State (main.rs lines 125-127): the three process-wide
counters. -/
structure Progress where
  downloaded : Nat
  failed : Nat
  downloaded_size : Nat

/-- Counter updates for one key's outcome (main.rs lines 173-199):
`downloaded.fetch_add(1)` and `downloaded_size.fetch_add(bytes.len())` on
success, `failed.fetch_add(1)` on failure. -/
def recordOutcome (p : Progress) (outcome : Except ε Bytes) : Progress :=
  match outcome with
  | .ok bytes =>
    Progress.mk (p.downloaded + 1) p.failed (p.downloaded_size + bytes.length)
  | .error _ => Progress.mk p.downloaded (p.failed + 1) p.downloaded_size

/-- Counters over a whole run, initialised to zero (main.rs lines
125-127), accumulated over the per-key outcomes in processing order. -/
def runProgress (outcomes : List (Except ε Bytes)) : Progress :=
  outcomes.foldl recordOutcome (Progress.mk 0 0 0)

/-! Size formatting: `format_size`, main.rs lines 21-37. -/

/-- The binary unit table of `format_size` (main.rs line 23). -/
def binaryUnits : List String := ["B", "KiB", "MiB", "GiB", "TiB"]

/-- The decimal unit table of `format_size` (main.rs line 25). -/
def decimalUnits : List String := ["B", "KB", "MB", "GB", "TB"]

/-- The `while size >= base && unit_index < units.len() - 1` loop of
`format_size` (main.rs lines 31-34); the `f64` size is modelled as a
rational number (the loop's control structure does not depend on
floating-point rounding). -/
def formatSizeLoop (base : ℚ) (unitsLen : Nat) (size : ℚ)
    (unit_index : Nat) : ℚ × Nat :=
  if base ≤ size ∧ unit_index < unitsLen - 1 then
    formatSizeLoop base unitsLen (size / base) (unit_index + 1)
  else
    (size, unit_index)
  termination_by unitsLen - 1 - unit_index

/-- Model of `format_size` (main.rs lines 21-37): returns the scaled
size, the final `unit_index`, and the unit string chosen (the decimal
rendering of the number itself is not modelled). -/
def format_size (size : Nat) (binary : Bool) : ℚ × Nat × String :=
  let units := if binary then binaryUnits else decimalUnits
  let base : ℚ := if binary then 1024 else 1000
  let r := formatSizeLoop base units.length (size : ℚ) 0
  (r.1, r.2, units.getD r.2 "")

/-! Lemmas about the Retry Policy. -/

lemma retryGo_stop (f : Nat → Except E A) (mr : Nat) (dflt : E)
    (rc : Nat) (le : Option E) (sleeps : List Nat) (h : ¬ rc ≤ mr) :
    retryGo f mr dflt rc le sleeps = (.error (le.getD dflt), rc, sleeps) := by
  rw [retryGo]; simp [h]

/-- Loop invariant of the retry loop: at most `mr + 1` calls are made in
total, at least one more call is made whenever the loop guard holds, and
the sleeps performed are exactly `2^(rc+1), …, 2^(c-1)` where `c` is the
final call count. -/
lemma retryGo_spec (f : Nat → Except E A) (mr : Nat) (dflt : E) :
    ∀ n rc le sleeps, mr + 1 - rc ≤ n → rc ≤ mr + 1 →
      (retryGo f mr dflt rc le sleeps).2.1 ≤ mr + 1 ∧
      rc ≤ (retryGo f mr dflt rc le sleeps).2.1 ∧
      (rc ≤ mr → rc + 1 ≤ (retryGo f mr dflt rc le sleeps).2.1) ∧
      (retryGo f mr dflt rc le sleeps).2.2 =
        sleeps ++ (List.range ((retryGo f mr dflt rc le sleeps).2.1 - 1 - rc)).map
          (fun k => 2 ^ (rc + k + 1)) := by
  intro n
  induction n with
  | zero =>
    intro rc le sleeps hn hrc
    rw [retryGo_stop f mr dflt rc le sleeps (by omega)]
    exact ⟨show rc ≤ mr + 1 from hrc, le_refl rc,
      fun h2 => absurd h2 (by omega), by simp⟩
  | succ n ih =>
    intro rc le sleeps hn hrc
    by_cases h : rc ≤ mr
    · rw [retryGo]
      simp only [h, if_true]
      cases hf : f rc with
      | ok a =>
        exact ⟨show rc + 1 ≤ mr + 1 by omega, Nat.le_succ rc,
          fun _ => le_refl (rc + 1), by simp⟩
      | error e =>
        by_cases h2 : rc + 1 ≤ mr
        · simp only [h2, if_true]
          obtain ⟨ih1, ih2, ih3, ih4⟩ :=
            ih (rc + 1) (some e) (sleeps ++ [2 ^ (rc + 1)]) (by omega) (by omega)
          refine ⟨ih1, by omega, fun _ => by omega, ?_⟩
          rw [ih4]
          have hc2 : rc + 2 ≤ (retryGo f mr dflt (rc + 1) (some e)
              (sleeps ++ [2 ^ (rc + 1)])).2.1 := ih3 h2
          set c := (retryGo f mr dflt (rc + 1) (some e)
              (sleeps ++ [2 ^ (rc + 1)])).2.1 with hc
          have hsub : c - 1 - rc = (c - 1 - (rc + 1)) + 1 := by omega
          have hfun : ((fun k => 2 ^ (rc + k + 1)) ∘ Nat.succ) =
              (fun k => 2 ^ (rc + 1 + k + 1)) := by
            funext k
            show 2 ^ (rc + (k + 1) + 1) = 2 ^ (rc + 1 + k + 1)
            congr 1
            omega
          rw [hsub, List.range_succ_eq_map, List.map_cons, List.map_map, hfun]
          simp
        · simp only [h2, if_false]
          rw [retryGo_stop f mr dflt (rc + 1) (some e) sleeps (by omega)]
          exact ⟨show rc + 1 ≤ mr + 1 by omega, Nat.le_succ rc,
            fun _ => le_refl (rc + 1), by simp⟩
    · rw [retryGo_stop f mr dflt rc le sleeps h]
      exact ⟨show rc ≤ mr + 1 from hrc, le_refl rc, fun h2 => absurd h2 h, by simp⟩

/-- Top-level packaging of `retryGo_spec`: the Retry Policy makes between
1 and `mr + 1` calls, and sleeps exactly `2^1, …, 2^(calls-1)`, in
order. -/
lemma dow_spec (f : Nat → Except E A) (mr : Nat) (dflt : E) :
    (download_object_with_retry f mr dflt).2.1 ≤ mr + 1 ∧
    1 ≤ (download_object_with_retry f mr dflt).2.1 ∧
    (download_object_with_retry f mr dflt).2.2 =
      (List.range ((download_object_with_retry f mr dflt).2.1 - 1)).map
        (fun k => 2 ^ (k + 1)) := by
  obtain ⟨h1, h2, h3, h4⟩ :=
    retryGo_spec f mr dflt (mr + 1) 0 none [] (by omega) (by omega)
  refine ⟨h1, h3 (by omega), ?_⟩
  simp only [download_object_with_retry]
  simpa using h4

/-- If the calls before attempt `j+1` all fail and attempt `j+1`
(i.e. `f j`) succeeds with `j ≤ mr`, the loop returns that success. -/
lemma retryGo_first_success (f : Nat → Except E A) (mr : Nat) (dflt : E)
    (j : Nat) (a : A) (hj : j ≤ mr) (hok : f j = .ok a)
    (hfail : ∀ k, k < j → ∃ e, f k = Except.error e) :
    ∀ n rc le sleeps, j - rc ≤ n → rc ≤ j →
      (retryGo f mr dflt rc le sleeps).1 = .ok a := by
  intro n
  induction n with
  | zero =>
    intro rc le sleeps hn hrc
    have hrj : rc = j := by omega
    subst hrj
    rw [retryGo]
    simp [show rc ≤ mr by omega, hok]
  | succ n ih =>
    intro rc le sleeps hn hrc
    by_cases hrj : rc = j
    · subst hrj
      rw [retryGo]
      simp [show rc ≤ mr by omega, hok]
    · obtain ⟨e, he⟩ := hfail rc (by omega)
      rw [retryGo]
      simp only [show rc ≤ mr by omega, if_true, he]
      by_cases h2 : rc + 1 ≤ mr
      · simp only [h2, if_true]
        exact ih (rc + 1) (some e) _ (by omega) (by omega)
      · simp only [h2, if_false]
        exact ih (rc + 1) (some e) sleeps (by omega) (by omega)

/-- If every attempt fails (with errors given by `g`), the loop returns
the error of the last attempt, `g mr`. -/
lemma retryGo_all_fail (f : Nat → Except E A) (mr : Nat) (dflt : E)
    (g : Nat → E) :
    ∀ n rc le sleeps, mr + 1 - rc ≤ n → rc ≤ mr →
      (∀ k, rc ≤ k → k ≤ mr → f k = .error (g k)) →
      (retryGo f mr dflt rc le sleeps).1 = .error (g mr) := by
  intro n
  induction n with
  | zero =>
    intro rc le sleeps hn hrc hf
    omega
  | succ n ih =>
    intro rc le sleeps hn hrc hf
    have hferc : f rc = .error (g rc) := hf rc (le_refl rc) hrc
    rw [retryGo]
    simp only [hrc, if_true, hferc]
    by_cases h2 : rc + 1 ≤ mr
    · simp only [h2, if_true]
      exact ih (rc + 1) (some (g rc)) _ (by omega) (by omega)
        (fun k hk1 hk2 => hf k (by omega) hk2)
    · simp only [h2, if_false]
      have hrm : rc = mr := by omega
      subst hrm
      rw [retryGo_stop f rc dflt (rc + 1) (some (g rc)) sleeps (by omega)]
      simp

/-- C2: the Retry Policy calls `f` at most `max_retries + 1` times; the
sleep performed between attempt `k` and attempt `k+1` is exactly `2^k`
seconds (the sleep list is `2^1, …, 2^(calls-1)`); and with
`max_retries = 3` on an operation failing on attempts 1-3 and succeeding
on attempt 4, it returns that success after exactly 4 calls, sleeping
`2 + 4 + 8 = 14` seconds in total. -/
theorem retry_policy_backoff_schedule (f : Nat → Except E A) (mr : Nat)
    (dflt : E) :
    (download_object_with_retry f mr dflt).2.1 ≤ mr + 1 ∧
    (download_object_with_retry f mr dflt).2.2 =
      (List.range ((download_object_with_retry f mr dflt).2.1 - 1)).map
        (fun k => 2 ^ (k + 1)) ∧
    download_object_with_retry failsFirstThree 3 () = (.ok 42, 4, [2, 4, 8]) ∧
    (download_object_with_retry failsFirstThree 3 ()).2.2.sum = 14 := by
  obtain ⟨h1, h2, h3⟩ := dow_spec f mr dflt
  refine ⟨h1, h3, ?_, ?_⟩
  · simp [download_object_with_retry, retryGo, failsFirstThree]
  · simp [download_object_with_retry, retryGo, failsFirstThree]

/-- C3: the Retry Policy returns the value of the first successful call
unchanged; and if all `max_retries + 1` attempts fail, it returns the
error of the most recent (last) attempt. -/
theorem retry_policy_first_success_or_last_error (f : Nat → Except E A)
    (mr : Nat) (dflt : E) (g : Nat → E) :
    (∀ j a, j ≤ mr → (∀ k, k < j → ∃ e, f k = Except.error e) →
      f j = .ok a → (download_object_with_retry f mr dflt).1 = .ok a) ∧
    ((∀ k, k ≤ mr → f k = .error (g k)) →
      (download_object_with_retry f mr dflt).1 = .error (g mr)) := by
  constructor
  · intro j a hj hfail hok
    exact retryGo_first_success f mr dflt j a hj hok hfail j 0 none []
      (by omega) (by omega)
  · intro hf
    exact retryGo_all_fail f mr dflt g (mr + 1) 0 none [] (by omega)
      (by omega) (fun k _ hk2 => hf k hk2)

/-- Witness for C3: the first success is returned on the
fails-then-succeeds operation; the last error (attempt index 2) is
returned on the always-failing operation with `max_retries = 2`. -/
theorem retry_policy_first_success_or_last_error_witness :
    (download_object_with_retry failsFirstThree 3 ()).1 = .ok 42 ∧
    (download_object_with_retry failAlways 2 0).1 = .error 2 := by
  constructor
  · exact (retry_policy_first_success_or_last_error failsFirstThree 3 ()
      (fun _ => ())).1 3 42 (by omega)
      (fun k hk => ⟨(), by simp [failsFirstThree, hk]⟩) (by rfl)
  · exact (retry_policy_first_success_or_last_error failAlways 2 0 id).2
      (fun k _ => rfl)

/-- C4: with `max_retries = 0` the Retry Policy calls the operation
exactly once and performs no sleep at all, whether it succeeds or
fails. -/
theorem retry_policy_zero_retries_single_call (f : Nat → Except E A)
    (dflt : E) :
    (download_object_with_retry f 0 dflt).2.1 = 1 ∧
    (download_object_with_retry f 0 dflt).2.2 = [] := by
  simp only [download_object_with_retry]
  rw [retryGo]
  cases hf : f 0 with
  | ok a => simp
  | error e => simp [retryGo_stop]

/-! Lemmas and theorems about the Work Partitioner. -/

/-- Grouping a list by a bounded `Nat`-valued key and concatenating the
groups in key order is a permutation of the original list. -/
lemma flatten_filter_key_perm (key : β → Nat) :
    ∀ (l : List β) (N : Nat), (∀ b ∈ l, key b < N) →
      ((List.range N).map (fun w => l.filter (fun b => key b == w))).flatten.Perm
        l := by
  intro l
  induction l with
  | nil => intro N _; simp
  | cons a t ih =>
    intro N hlt
    have ha : key a < N := hlt a (List.mem_cons_self a t)
    obtain ⟨m, hm⟩ : ∃ m, N = (key a + 1) + m := ⟨N - key a - 1, by omega⟩
    have hrange : List.range N =
        (List.range (key a) ++ [key a]) ++
          (List.range m).map (fun x => (key a + 1) + x) := by
      rw [hm, List.range_add, List.range_succ]
    have hlow : ∀ (s : List β), (List.range (key a)).map
        (fun w => (a :: s).filter (fun b => key b == w)) =
        (List.range (key a)).map (fun w => s.filter (fun b => key b == w)) := by
      intro s
      apply List.map_congr_left
      intro w hw
      rw [List.mem_range] at hw
      rw [List.filter_cons]
      simp [show key a ≠ w by omega]
    have hhigh : ∀ (s : List β), ((List.range m).map (fun x => (key a + 1) + x)).map
        (fun w => (a :: s).filter (fun b => key b == w)) =
        ((List.range m).map (fun x => (key a + 1) + x)).map
          (fun w => s.filter (fun b => key b == w)) := by
      intro s
      apply List.map_congr_left
      intro w hw
      simp only [List.mem_map, List.mem_range] at hw
      obtain ⟨x, _, hx⟩ := hw
      rw [List.filter_cons]
      simp [show key a ≠ w by omega]
    have hmid : (a :: t).filter (fun b => key b == key a) =
        a :: t.filter (fun b => key b == key a) := by
      rw [List.filter_cons]
      simp
    rw [hrange, List.map_append, List.map_append, List.flatten_append,
      List.flatten_append, hlow, hhigh]
    simp only [List.map_cons, List.map_nil, hmid, List.flatten_cons,
      List.flatten_nil, List.append_nil]
    have hassoc :
        ((List.range (key a)).map (fun w => t.filter (fun b => key b == w))).flatten ++
          (a :: t.filter (fun b => key b == key a)) ++
          (((List.range m).map (fun x => (key a + 1) + x)).map
            (fun w => t.filter (fun b => key b == w))).flatten =
        ((List.range (key a)).map (fun w => t.filter (fun b => key b == w))).flatten ++
          a :: (t.filter (fun b => key b == key a) ++
          (((List.range m).map (fun x => (key a + 1) + x)).map
            (fun w => t.filter (fun b => key b == w))).flatten) := by
      simp [List.append_assoc]
    rw [hassoc]
    refine List.perm_middle.trans ?_
    refine List.Perm.cons a ?_
    have hback : ((List.range N).map (fun w => t.filter (fun b => key b == w))).flatten =
        ((List.range (key a)).map (fun w => t.filter (fun b => key b == w))).flatten ++
          (t.filter (fun b => key b == key a) ++
          (((List.range m).map (fun x => (key a + 1) + x)).map
            (fun w => t.filter (fun b => key b == w))).flatten) := by
      rw [hrange, List.map_append, List.map_append, List.flatten_append,
        List.flatten_append]
      simp [List.append_assoc]
    rw [← hback]
    exact ih N (fun b hb => hlt b (List.mem_cons_of_mem a hb))

/-- Concatenating the per-worker assignments over all `N` workers is a
permutation of the enumerated key list. -/
lemma workerAssign_union_perm (keys : List α) (N : Nat) (hN : 1 ≤ N) :
    ((List.range N).map (fun w => workerAssign keys N w)).flatten.Perm
      keys.enum := by
  have := flatten_filter_key_perm (fun p : Nat × α => p.1 % N) keys.enum N
    (fun b _ => Nat.mod_lt _ (by omega))
  simpa [workerAssign, thread_num] using this

/-- C1: for every key list and worker count `N ≥ 1`, the key at flat
position `i` is assigned to worker `i mod N` and to no other worker,
every assigned worker index is below `N`, and the concatenation of all
workers' assigned subsequences is a permutation of the original key list
(no key lost, no key duplicated); includes the spec's `M = 10, N = 3`
example. -/
theorem work_partitioner_round_robin (keys : List α) (N : Nat) (hN : 1 ≤ N) :
    (∀ p ∈ keys.enum, ∀ w, p ∈ workerAssign keys N w ↔ w = thread_num p.1 N) ∧
    (∀ i, i < keys.length → thread_num i N < N) ∧
    ((List.range N).map (fun w => workerAssign keys N w)).flatten.Perm keys.enum ∧
    ((List.range N).map (fun w => workerKeys keys N w)).flatten.Perm keys ∧
    workerKeys (List.range 10) 3 0 = [0, 3, 6, 9] ∧
    workerKeys (List.range 10) 3 1 = [1, 4, 7] ∧
    workerKeys (List.range 10) 3 2 = [2, 5, 8] := by
  refine ⟨?_, ?_, workerAssign_union_perm keys N hN, ?_, by decide, by decide,
    by decide⟩
  · intro p hp w
    rw [workerAssign, List.mem_filter]
    constructor
    · intro h2
      have := h2.2
      simp only [beq_iff_eq] at this
      exact this.symm
    · intro h
      exact ⟨hp, by simp [h]⟩
  · intro i hi
    exact Nat.mod_lt _ (by omega)
  · have hperm := (workerAssign_union_perm keys N hN).map Prod.snd
    rw [List.enum_map_snd] at hperm
    have hmf : ((List.range N).map
          (fun w => workerAssign keys N w)).flatten.map Prod.snd =
        ((List.range N).map (fun w => workerKeys keys N w)).flatten := by
      rw [List.map_flatten, List.map_map]
      rfl
    rwa [hmf] at hperm

/-- Witness for C1: the partition of 10 keys over 3 workers is a
permutation of the original list. -/
theorem work_partitioner_round_robin_witness :
    ((List.range 3).map (fun w => workerKeys (List.range 10) 3 w)).flatten.Perm
      (List.range 10) :=
  (work_partitioner_round_robin (List.range 10) 3 (by decide)).2.2.2.1

/-! Lemmas and theorems about the Key Lister. -/

/-- Running the listing loop over fully-truncated good pages followed by
a failing request appends exactly the good pages' keys to the
accumulator. -/
lemma listObjectsGo_failure (e : ε) (rest : List (Except ε Page)) :
    ∀ (good : List Page) (acc : List Key),
      (∀ p ∈ good, p.is_truncated.getD false = true) →
      listObjectsGo acc (good.map Except.ok ++ Except.error e :: rest) =
        acc ++ (good.map pageKeys).flatten := by
  intro good
  induction good with
  | nil => intro acc _; simp [listObjectsGo]
  | cons p t ih =>
    intro acc hgood
    rw [List.map_cons, List.cons_append]
    rw [listObjectsGo]
    simp only [hgood p (List.mem_cons_self p t), if_true]
    rw [ih (acc ++ pageKeys p) (fun q hq => hgood q (List.mem_cons_of_mem p hq))]
    simp [List.append_assoc]

/-- C5: if the pages before page `j` succeed (and are truncated, so
listing continues) and the request for page `j` fails, `list_objects`
stops at that failure and returns exactly the keys accumulated from the
earlier pages; the failure is not surfaced to the caller (the result type
is a plain key list, not a result). -/
theorem key_lister_stops_at_first_failure (good : List Page) (e : ε)
    (rest : List (Except ε Page))
    (hgood : ∀ p ∈ good, p.is_truncated.getD false = true) :
    list_objects (good.map Except.ok ++ Except.error e :: rest) =
      (good.map pageKeys).flatten := by
  rw [list_objects, listObjectsGo_failure e rest good [] hgood, List.nil_append]

/-- Witness for C5: one good truncated page, then a failure, then a
further (never reached) page: only the good page's present keys are
returned. -/
theorem key_lister_stops_at_first_failure_witness :
    list_objects ([Except.ok (Page.mk (some [some ['a'], none, some ['b']])
        (some true))] ++
      Except.error () :: [Except.ok (Page.mk (some [some ['c']]) none)]) =
      [['a'], ['b']] := by
  have h := key_lister_stops_at_first_failure
    [Page.mk (some [some ['a'], none, some ['b']]) (some true)]
    () [Except.ok (Page.mk (some [some ['c']]) none)]
    (by decide)
  simpa [pageKeys] using h

/-! Lemmas and theorems about the Key Cache. -/

/-- Splitting a line off `k ++ '\n' :: rest` recovers `k` and `rest`
when `k` itself contains no newline. -/
lemma splitLine_append (k rest : List Char) (hk : '\n' ∉ k) :
    splitLine (k ++ '\n' :: rest) = (k, rest) := by
  induction k with
  | nil => simp [splitLine]
  | cons c cs ih =>
    rw [List.cons_append, splitLine]
    have hc : ¬ c = '\n' := fun h => hk (h ▸ List.mem_cons_self c cs)
    simp only [hc, if_false]
    rw [ih (fun h => hk (List.mem_cons_of_mem c h))]

/-- Reading lines of `k ++ '\n' :: rest` yields `k` followed by the lines
of `rest`, when `k` contains no newline and does not end in a carriage
return. -/
lemma readLines_cons_line (k rest : List Char) (hk : '\n' ∉ k)
    (hcr : k.getLast? ≠ some '\r') :
    readLines (k ++ '\n' :: rest) = k :: readLines rest := by
  have hne : ¬ (k ++ '\n' :: rest).isEmpty = true := by
    cases k <;> simp
  rw [readLines, dif_neg hne, splitLine_append k rest hk]
  show stripCR k :: readLines rest = k :: readLines rest
  rw [stripCR, if_neg hcr]

/-- C6 (amended): saving a key list to the cache file and loading it back
returns exactly the original key list (hence a set-equal one), provided
no key contains a newline character or ends in a carriage return; this
includes keys containing slashes. -/
theorem key_cache_roundtrip (keys : List Key)
    (hkeys : ∀ k ∈ keys, '\n' ∉ k ∧ k.getLast? ≠ some '\r') :
    readLines (saveFileList keys) = keys := by
  induction keys with
  | nil =>
    rw [saveFileList]
    simp [readLines]
  | cons k t ih =>
    have hsave : saveFileList (k :: t) = k ++ '\n' :: saveFileList t := by
      rw [saveFileList, List.map_cons, List.flatten_cons]
      simp [saveFileList]
    rw [hsave]
    obtain ⟨hk, hcr⟩ := hkeys k (List.mem_cons_self k t)
    rw [readLines_cons_line k _ hk hcr]
    rw [ih (fun q hq => hkeys q (List.mem_cons_of_mem k hq))]

/-- Witness for C6: a round-trip through the cache file preserves a
non-empty key list whose first key contains a slash. -/
theorem key_cache_roundtrip_witness :
    readLines (saveFileList [['a', '/', 'b'], ['c']]) = [['a', '/', 'b'], ['c']] :=
  key_cache_roundtrip [['a', '/', 'b'], ['c']] (by decide)

/-- Counterexample for C6 as stated: the claim quantifies over every
non-empty key list, but a key containing a newline is split in two by the
round-trip, so the loaded key set is not equal (as a set) to the original
one-element list. -/
theorem key_cache_roundtrip_counterexample :
    readLines (saveFileList [['a', '\n', 'b']]) = [['a'], ['b']] ∧
    ¬ (∀ k : Key, k ∈ readLines (saveFileList [['a', '\n', 'b']]) ↔
        k ∈ [['a', '\n', 'b']]) := by
  have h1 : readLines (saveFileList [['a', '\n', 'b']]) = [['a'], ['b']] := by
    have hsv : saveFileList [['a', '\n', 'b']] = ['a', '\n', 'b', '\n'] := by
      decide
    rw [hsv]
    rw [readLines]
    simp only [List.isEmpty_cons, dif_neg, Bool.false_eq_true, not_false_iff]
    have h2 : splitLine ['a', '\n', 'b', '\n'] = (['a'], ['b', '\n']) := by
      decide
    rw [h2]
    rw [readLines]
    simp only [List.isEmpty_cons, dif_neg, Bool.false_eq_true, not_false_iff]
    have h3 : splitLine ['b', '\n'] = (['b'], []) := by decide
    rw [h3]
    rw [readLines]
    simp [stripCR]
  refine ⟨h1, fun h => ?_⟩
  have := (h ['a']).mp (by rw [h1]; simp)
  simp at this

/-! Theorems about the key-source selection. -/

/-- C7: if an explicit key-list file is supplied, the keys are read from
it and neither the cache nor the lister is touched; otherwise, if the
cache file for the bucket exists, keys are loaded from it without
listing; otherwise the bucket is listed fresh and the result is saved to
the cache file. -/
theorem key_source_selection_precedence
    (fsRead : List Char → Option (List Char)) (bucket : List Char)
    (responses : List (Except Unit Page)) :
    (∀ fl content, fsRead fl = some content →
      getKeys fsRead (some fl) bucket responses =
        KeySelection.mk (readLines content) false none) ∧
    (∀ content, fsRead (default_file_list bucket) = some content →
      getKeys fsRead none bucket responses =
        KeySelection.mk (readLines content) false none) ∧
    (fsRead (default_file_list bucket) = none →
      getKeys fsRead none bucket responses =
        KeySelection.mk (list_objects responses) true
          (some (saveFileList (list_objects responses)))) := by
  refine ⟨?_, ?_, ?_⟩
  · intro fl content hfl
    simp [getKeys, hfl]
  · intro content hc
    simp [getKeys, hc]
  · intro hc
    simp [getKeys, hc]

/-- Witness for C7: the three selection branches at concrete inputs. -/
theorem key_source_selection_precedence_witness :
    (getKeys (fun p => if p = ['x'] then some ['k', '\n'] else none)
        (some ['x']) ['b'] ([] : List (Except Unit Page)) =
      KeySelection.mk (readLines ['k', '\n']) false none) ∧
    (getKeys (fun p => if p = default_file_list ['b'] then some ['c', '\n']
          else none)
        none ['b'] ([] : List (Except Unit Page)) =
      KeySelection.mk (readLines ['c', '\n']) false none) ∧
    (getKeys (fun _ => none) none ['b'] ([] : List (Except Unit Page)) =
      KeySelection.mk (list_objects ([] : List (Except Unit Page))) true
        (some (saveFileList (list_objects ([] : List (Except Unit Page)))))) := by
  refine ⟨?_, ?_, ?_⟩
  · exact (key_source_selection_precedence _ ['b'] []).1 ['x'] ['k', '\n']
      (by simp)
  · exact (key_source_selection_precedence _ ['b'] []).2.1 ['c', '\n'] (by simp)
  · exact (key_source_selection_precedence _ ['b'] []).2.2 rfl

/-! Theorems about the Download Executor's side effects. -/

/-- Counterexample for C8 as stated: the parent-directory creation
happens before the fetch is awaited (main.rs lines 168-171), so a key
whose fetch fails still has `create_dir_all` in its effect trace — the
directory is not created "only after a successful fetch". -/
theorem download_executor_no_mkdir_on_failure_counterexample :
    Effect.createDirAll ∈ processKeyEffects true (Except.error ()) ∧
    processKeyEffects true (Except.error ())
      = [Effect.createDirAll, Effect.incFailed] := by
  constructor
  · simp [processKeyEffects]
  · rfl

/-- C8 (amended): the parent directory is created first for every key,
before and regardless of the fetch outcome; beyond that directory
creation, a key whose fetch fails has no side effect other than the
failure-counter increment — no file is created or written and no success
counter moves. -/
theorem download_executor_failure_effects (e : ε) (fetch : Except ε Bytes)
    (hasParent : Bool) :
    processKeyEffects hasParent (Except.error e) =
      (if hasParent then [Effect.createDirAll] else []) ++ [Effect.incFailed] ∧
    (hasParent = true →
      (processKeyEffects hasParent fetch).head? = some Effect.createDirAll) ∧
    (∀ n, Effect.createWriteFile n ∉ processKeyEffects hasParent (Except.error e)) ∧
    Effect.incDownloaded ∉ processKeyEffects hasParent (Except.error e) ∧
    (∀ n, Effect.incDownloadedSize n ∉ processKeyEffects hasParent (Except.error e)) := by
  refine ⟨rfl, ?_, ?_, ?_, ?_⟩
  · intro h
    subst h
    cases fetch <;> rfl
  · intro n
    cases hasParent <;> simp [processKeyEffects]
  · cases hasParent <;> simp [processKeyEffects]
  · intro n
    cases hasParent <;> simp [processKeyEffects]

/-- Witness for C8 (amended): with a parent directory present and a
failing fetch, the first effect of the trace is the directory
creation. -/
theorem download_executor_failure_effects_witness :
    (processKeyEffects true (Except.error () : Except Unit Bytes)).head? =
      some Effect.createDirAll :=
  (download_executor_failure_effects () (Except.error ()) true).2.1 rfl

/-! Lemmas and theorems about the Progress State. -/

/-- Folding `recordOutcome` never decreases any of the three counters. -/
lemma foldl_recordOutcome_mono (outcomes : List (Except ε Bytes)) :
    ∀ p : Progress,
      p.downloaded ≤ (outcomes.foldl recordOutcome p).downloaded ∧
      p.failed ≤ (outcomes.foldl recordOutcome p).failed ∧
      p.downloaded_size ≤ (outcomes.foldl recordOutcome p).downloaded_size := by
  induction outcomes with
  | nil => intro p; exact ⟨le_refl _, le_refl _, le_refl _⟩
  | cons o t ih =>
    intro p
    rw [List.foldl_cons]
    obtain ⟨h1, h2, h3⟩ := ih (recordOutcome p o)
    cases o with
    | ok bytes => exact ⟨by simp [recordOutcome] at h1 ⊢; omega,
        by simpa [recordOutcome] using h2,
        by simp [recordOutcome] at h3 ⊢; omega⟩
    | error e => exact ⟨by simpa [recordOutcome] using h1,
        by simp [recordOutcome] at h2 ⊢; omega,
        by simpa [recordOutcome] using h3⟩

/-- Folding `recordOutcome` adds exactly one to the sum
`downloaded + failed` per outcome processed. -/
lemma foldl_recordOutcome_sum (outcomes : List (Except ε Bytes)) :
    ∀ p : Progress,
      (outcomes.foldl recordOutcome p).downloaded +
        (outcomes.foldl recordOutcome p).failed =
      p.downloaded + p.failed + outcomes.length := by
  induction outcomes with
  | nil => intro p; simp
  | cons o t ih =>
    intro p
    rw [List.foldl_cons, ih (recordOutcome p o)]
    cases o <;> simp [recordOutcome] <;> omega

/-- C9: a success increments `downloaded` by one and grows
`downloaded_size` by the fetched byte length; a failure increments
`failed` by one and nothing else; every outcome increments exactly one of
`downloaded`/`failed`; all three counters are monotonically non-decreasing
over any run segment; and after all keys are processed
`downloaded + failed` equals the number of keys processed. -/
theorem progress_counters_invariant (outcomes : List (Except ε Bytes))
    (p : Progress) (bytes : Bytes) (e : ε) :
    (recordOutcome p (Except.ok bytes : Except ε Bytes) =
      Progress.mk (p.downloaded + 1) p.failed
        (p.downloaded_size + bytes.length)) ∧
    (recordOutcome p (Except.error e) =
      Progress.mk p.downloaded (p.failed + 1) p.downloaded_size) ∧
    (∀ o : Except ε Bytes,
      (recordOutcome p o).downloaded + (recordOutcome p o).failed =
        p.downloaded + p.failed + 1) ∧
    (p.downloaded ≤ (outcomes.foldl recordOutcome p).downloaded ∧
     p.failed ≤ (outcomes.foldl recordOutcome p).failed ∧
     p.downloaded_size ≤ (outcomes.foldl recordOutcome p).downloaded_size) ∧
    (runProgress outcomes).downloaded + (runProgress outcomes).failed =
      outcomes.length := by
  refine ⟨rfl, rfl, ?_, foldl_recordOutcome_mono outcomes p, ?_⟩
  · intro o
    cases o <;> simp [recordOutcome] <;> omega
  · have := foldl_recordOutcome_sum outcomes (Progress.mk 0 0 0)
    simpa [runProgress] using this

/-! Lemmas and theorems about `format_size`. -/

/-- The formatting loop stops when its guard fails. -/
lemma formatSizeLoop_stop (base : ℚ) (ul : Nat) (size : ℚ) (idx : Nat)
    (h : ¬ (base ≤ size ∧ idx < ul - 1)) :
    formatSizeLoop base ul size idx = (size, idx) := by
  rw [formatSizeLoop]; simp [h]

/-- The formatting loop performs one division and one index bump when its
guard holds. -/
lemma formatSizeLoop_step (base : ℚ) (ul : Nat) (size : ℚ) (idx : Nat)
    (h1 : base ≤ size) (h2 : idx < ul - 1) :
    formatSizeLoop base ul size idx =
      formatSizeLoop base ul (size / base) (idx + 1) := by
  rw [formatSizeLoop]
  simp only [h1, h2, and_self, if_true]

/-- The final unit index never exceeds `units.len() - 1`. -/
lemma formatSizeLoop_idx_le (base : ℚ) (ul : Nat) :
    ∀ n size idx, ul - 1 - idx ≤ n → idx ≤ ul - 1 →
      (formatSizeLoop base ul size idx).2 ≤ ul - 1 := by
  intro n
  induction n with
  | zero =>
    intro size idx hn hidx
    rw [formatSizeLoop_stop base ul size idx (by omega)]
    exact hidx
  | succ n ih =>
    intro size idx hn hidx
    by_cases h : base ≤ size ∧ idx < ul - 1
    · rw [formatSizeLoop_step base ul size idx h.1 h.2]
      exact ih (size / base) (idx + 1) (by omega) (by omega)
    · rw [formatSizeLoop_stop base ul size idx h]
      exact hidx

/-- Indexing the binary unit table at any index up to 4 yields one of its
entries. -/
lemma binaryUnits_getD_mem : ∀ i, i ≤ 4 → binaryUnits.getD i "" ∈ binaryUnits := by
  intro i hi
  interval_cases i <;> decide

/-- Indexing the decimal unit table at any index up to 4 yields one of
its entries. -/
lemma decimalUnits_getD_mem : ∀ i, i ≤ 4 → decimalUnits.getD i "" ∈ decimalUnits := by
  intro i hi
  interval_cases i <;> decide

/-- C10: for every `u64` size and either unit base, `format_size`'s final
unit index is at most 4 (always within the five-entry unit table — the
Lean model is total, so the loop terminates), the chosen unit is one of
the five units of the selected table, and any size of at least a
quintillion (`10^18`) bytes is capped at the last unit (`TiB`/`TB`) with
index exactly 4. -/
theorem format_size_unit_in_bounds (size : Nat) (binary : Bool) :
    (format_size size binary).2.1 ≤ 4 ∧
    (format_size size binary).2.2 ∈ (if binary then binaryUnits else decimalUnits) ∧
    (10 ^ 18 ≤ size →
      (format_size size binary).2.1 = 4 ∧
      (format_size size binary).2.2 = (if binary then "TiB" else "TB")) := by
  cases binary with
  | true =>
    have hfs : format_size size true =
        ((formatSizeLoop 1024 5 (size : ℚ) 0).1,
         (formatSizeLoop 1024 5 (size : ℚ) 0).2,
         binaryUnits.getD (formatSizeLoop 1024 5 (size : ℚ) 0).2 "") := rfl
    have hidx : (formatSizeLoop (1024 : ℚ) 5 (size : ℚ) 0).2 ≤ 4 := by
      have := formatSizeLoop_idx_le 1024 5 4 (size : ℚ) 0 (by omega) (by omega)
      simpa using this
    refine ⟨by rw [hfs]; exact hidx, ?_, ?_⟩
    · rw [hfs]
      simpa using binaryUnits_getD_mem _ hidx
    · intro h18
      have hq : (10 : ℚ) ^ 18 ≤ (size : ℚ) := by exact_mod_cast h18
      have c1 : (1024 : ℚ) ≤ (size : ℚ) := by
        have h0 : (1024 : ℚ) ≤ 10 ^ 18 := by norm_num
        linarith
      have c2 : (1024 : ℚ) ≤ (size : ℚ) / 1024 := by
        rw [le_div_iff₀ (by norm_num)]
        have h0 : (1024 : ℚ) * 1024 ≤ 10 ^ 18 := by norm_num
        linarith
      have c3 : (1024 : ℚ) ≤ (size : ℚ) / 1024 / 1024 := by
        rw [div_div, le_div_iff₀ (by norm_num)]
        have h0 : (1024 : ℚ) * (1024 * 1024) ≤ 10 ^ 18 := by norm_num
        linarith
      have c4 : (1024 : ℚ) ≤ (size : ℚ) / 1024 / 1024 / 1024 := by
        rw [div_div, div_div, le_div_iff₀ (by norm_num)]
        have h0 : (1024 : ℚ) * (1024 * 1024 * 1024) ≤ 10 ^ 18 := by norm_num
        linarith
      have hloop : (formatSizeLoop (1024 : ℚ) 5 (size : ℚ) 0).2 = 4 := by
        rw [formatSizeLoop_step 1024 5 _ 0 c1 (by norm_num),
            formatSizeLoop_step 1024 5 _ 1 c2 (by norm_num),
            formatSizeLoop_step 1024 5 _ 2 c3 (by norm_num),
            formatSizeLoop_step 1024 5 _ 3 c4 (by norm_num),
            formatSizeLoop_stop 1024 5 _ 4 (by norm_num)]
      rw [hfs]
      refine ⟨hloop, ?_⟩
      simp only [hloop]
      rfl
  | false =>
    have hfs : format_size size false =
        ((formatSizeLoop 1000 5 (size : ℚ) 0).1,
         (formatSizeLoop 1000 5 (size : ℚ) 0).2,
         decimalUnits.getD (formatSizeLoop 1000 5 (size : ℚ) 0).2 "") := rfl
    have hidx : (formatSizeLoop (1000 : ℚ) 5 (size : ℚ) 0).2 ≤ 4 := by
      have := formatSizeLoop_idx_le 1000 5 4 (size : ℚ) 0 (by omega) (by omega)
      simpa using this
    refine ⟨by rw [hfs]; exact hidx, ?_, ?_⟩
    · rw [hfs]
      simpa using decimalUnits_getD_mem _ hidx
    · intro h18
      have hq : (10 : ℚ) ^ 18 ≤ (size : ℚ) := by exact_mod_cast h18
      have c1 : (1000 : ℚ) ≤ (size : ℚ) := by
        have h0 : (1000 : ℚ) ≤ 10 ^ 18 := by norm_num
        linarith
      have c2 : (1000 : ℚ) ≤ (size : ℚ) / 1000 := by
        rw [le_div_iff₀ (by norm_num)]
        have h0 : (1000 : ℚ) * 1000 ≤ 10 ^ 18 := by norm_num
        linarith
      have c3 : (1000 : ℚ) ≤ (size : ℚ) / 1000 / 1000 := by
        rw [div_div, le_div_iff₀ (by norm_num)]
        have h0 : (1000 : ℚ) * (1000 * 1000) ≤ 10 ^ 18 := by norm_num
        linarith
      have c4 : (1000 : ℚ) ≤ (size : ℚ) / 1000 / 1000 / 1000 := by
        rw [div_div, div_div, le_div_iff₀ (by norm_num)]
        have h0 : (1000 : ℚ) * (1000 * 1000 * 1000) ≤ 10 ^ 18 := by norm_num
        linarith
      have hloop : (formatSizeLoop (1000 : ℚ) 5 (size : ℚ) 0).2 = 4 := by
        rw [formatSizeLoop_step 1000 5 _ 0 c1 (by norm_num),
            formatSizeLoop_step 1000 5 _ 1 c2 (by norm_num),
            formatSizeLoop_step 1000 5 _ 2 c3 (by norm_num),
            formatSizeLoop_step 1000 5 _ 3 c4 (by norm_num),
            formatSizeLoop_stop 1000 5 _ 4 (by norm_num)]
      rw [hfs]
      refine ⟨hloop, ?_⟩
      simp only [hloop]
      rfl

/-- Witness for C10: one quintillion bytes in binary mode lands on unit
index 4 and unit `TiB`. -/
theorem format_size_unit_in_bounds_witness :
    (format_size (10 ^ 18) true).2.1 = 4 ∧
    (format_size (10 ^ 18) true).2.2 = "TiB" := by
  have h := (format_size_unit_in_bounds (10 ^ 18) true).2.2 (le_refl _)
  simpa using h

end S3Downloader
